import Mathlib

/-!
# RSVPreader: verification of the paced-playback core

Shallow embedding of the core logic of `app.py` (an RSVP speed-reading
application): the JSON-backed progress store (`load_all_progress`,
`save_all_progress`, `load_progress`, `save_progress`), the settings store
(`load_app_settings` and `MainWindow.load_settings_from_file`), the playback
worker loop (`WordDisplayThread.run`), and the context viewer
(`ContextWindow.update_context`).

Modelling conventions:
* A JSON table `{key: int, ...}` is an association list `Table` with the keys
  in insertion order; Python `dict` lookup and item assignment become
  `findVal` and `dictSet`.
* The progress / settings file on disk is a `FileState`: `missing` (file does
  not exist), `malformed` (present but `json.load` raises `JSONDecodeError` /
  `IOError`), or `table t` (parses to the dict `t`).
* The worker loop of `WordDisplayThread.run` is driven by the list of loop
  indices `range(start_index, total_words)`; the cooperative `self.running`
  flag, which another thread may clear at any time, is modelled as a predicate
  `running : Nat -> Bool` giving the value the flag is observed to have at the
  top of the iteration with loop variable `i`.
* Python's `int((i + 1) / total_words * 100)` is computed in IEEE-754
  binary64 arithmetic: the division and the multiplication each round their
  exact result to the nearest double.  This is embedded exactly: `fl`
  performs binary64 rounding (53-bit significand, round to nearest, ties to
  even) in rational arithmetic - faithful on the normal range, which every
  argument arising here inhabits - and `progressPct` chains the two
  roundings and truncates toward zero as `int` does.  The result can fall
  one below the exact percentage floor (e.g. `29/100*100` computes to
  `28.999999999999996`, so step 28 of 100 emits 28, not 29).
* Emitting `word_signal` / `progress_signal` is modelled by collecting the
  emitted `(word, progress)` events in a list, in emission order; the
  checkpoint writes `save_progress(file_path, i + 1)` are collected in a
  second list, in write order.
-/

namespace RSVPreader

/-- A parsed JSON object mapping string keys to integer values, in insertion
order (Python `dict` preserves insertion order). -/
abbrev Table := List (String × Int)

/-- Python `d.get(k)` on a dict: the value at the first (and in a well-formed
dict, only) occurrence of key `k`. -/
def findVal : Table → String → Option Int
  | [], _ => none
  | p :: rest, k => if p.1 = k then some p.2 else findVal rest k

/-- Python `d[k] = v` on a dict: replace the value at `k` in place if the key
is present, otherwise append the new entry at the end. -/
def dictSet : Table → String → Int → Table
  | [], k, v => [(k, v)]
  | p :: rest, k, v => if p.1 = k then (k, v) :: rest else p :: dictSet rest k v

/-- The observable state of one JSON file on disk. -/
inductive FileState where
  | missing
  | malformed
  | table (t : Table)

/-- `load_all_progress` (app.py:20-31): returns the parsed dict when the file
exists and parses; returns `{}` when the file is missing, or when reading or
parsing raises (`JSONDecodeError`, `IOError`), which the function catches. -/
def load_all_progress : FileState → Table
  | .missing => []
  | .malformed => []
  | .table t => t

/-- `save_all_progress` (app.py:33-38): rewrites the progress file with the
serialized table; afterwards the file parses back to exactly that table. -/
def save_all_progress (data : Table) : FileState :=
  .table data

/-- `load_progress` (app.py:40-46): `load_all_progress().get(file_path, 0)`. -/
def load_progress (fs : FileState) (file_path : String) : Int :=
  (findVal (load_all_progress fs) file_path).getD 0

/-- `save_progress` (app.py:48-55): load the full table, set
`data[file_path] = index`, rewrite the full table. -/
def save_progress (fs : FileState) (file_path : String) (index : Int) : FileState :=
  save_all_progress (dictSet (load_all_progress fs) file_path index)

/-- `load_app_settings` (app.py:81-92): same shape as `load_all_progress` but
for the settings file. -/
def load_app_settings : FileState → Table
  | .missing => []
  | .malformed => []
  | .table t => t

/-- `MainWindow.load_settings_from_file` (app.py:315-321): reads the settings
dict and returns `(words_per_minute, font_size)`, defaulting to `300` and `16`
when the corresponding key is absent (`settings.get(key, default)`). -/
def load_settings_from_file (fs : FileState) : Int × Int :=
  let settings := load_app_settings fs
  ((findVal settings "words_per_minute").getD 300,
   (findVal settings "font_size").getD 16)

/-- Round a rational to the nearest integer, breaking exact ties to the even
integer - the IEEE-754 default rounding direction. -/
def roundEven (q : ℚ) : ℤ :=
  if Int.fract q < 1/2 then ⌊q⌋
  else if 1/2 < Int.fract q then ⌊q⌋ + 1
  else if ⌊q⌋ % 2 = 0 then ⌊q⌋ else ⌊q⌋ + 1

/-- Rounding a positive rational to the nearest IEEE-754 binary64 value
(53-bit significand, round to nearest, ties to even), computed exactly in
rational arithmetic: the argument is scaled into `[2^52, 2^53)` by the power
of two `2^(e-52)` with `2^e <= q < 2^(e+1)`, rounded to an integer
significand, and scaled back.  This is the exact binary64 rounding for
arguments in the normal range, which covers every argument arising below;
nonpositive arguments return 0 (they never arise). -/
def fl (q : ℚ) : ℚ :=
  if 0 < q then
    (roundEven (q / 2 ^ (Int.log 2 q - 52)) : ℚ) * 2 ^ (Int.log 2 q - 52)
  else 0

/-- The integer percentage `int((i + 1) / total_words * 100)` emitted on
`progress_signal` (app.py:131), computed as the program computes it in
IEEE-754 binary64 arithmetic: the quotient `(i + 1) / total_words` is rounded
to a double (`fl`), the product with `100` is rounded to a double again, and
`int(...)` truncates toward zero - for this nonnegative value, the floor.
Here `k = i + 1`.  (`total = 0` never reaches this expression: the loop body
is unreachable then.) -/
def progressPct (k total : Nat) : Nat :=
  (⌊fl (fl ((k : ℚ) / (total : ℚ)) * 100)⌋).toNat

/-- One playback step loop (`WordDisplayThread.run`, app.py:126-135) over an
explicit list of loop indices.  At each index `i`: if the `running` flag is
observed false, break; otherwise emit the event `(words[i], progress)` and
then checkpoint `i + 1`.  Returns the emitted events and the checkpoint
writes, each in order.  (The `time.sleep(delay)` between emission and
checkpoint has no effect on the emitted or written values and is not
modelled.) -/
def stepLoop (words : List String) (running : Nat → Bool) :
    List Nat → List (String × Nat) × List Nat
  | [] => ([], [])
  | i :: rest =>
    if running i then
      let r := stepLoop words running rest
      ((words.getD i "", progressPct (i + 1) words.length) :: r.1, (i + 1) :: r.2)
    else
      ([], [])

/-- The loop indices `range(start_index, total_words)` of
`WordDisplayThread.run` (app.py:126). -/
def loopIndices (words : List String) (start : Nat) : List Nat :=
  List.range' start (words.length - start)

/-- `WordDisplayThread.run` without abnormal interruption (app.py:118-135),
for a session whose resume index is `start`: the emitted `(word, progress)`
events and the checkpoint writes, in order. -/
def run (words : List String) (running : Nat → Bool) (start : Nat) :
    List (String × Nat) × List Nat :=
  stepLoop words running (loopIndices words start)

/-- The words delivered on `word_signal` by a session, in order. -/
def emittedWords (words : List String) (running : Nat → Bool) (start : Nat) :
    List String :=
  (run words running start).1.map Prod.fst

/-- A full playback session for document `file_path` against progress-store
state `fs`: the resume index is `load_progress(file_path)` (app.py:121).  The
claims considered here all have the stored index nonnegative, so the Python
index is read as a `Nat` via `Int.toNat`. -/
def runSession (fs : FileState) (file_path : String) (words : List String)
    (running : Nat → Bool) : List (String × Nat) × List Nat :=
  run words running (load_progress fs file_path).toNat

/-- Applying a session's checkpoint writes (each one a
`save_progress(file_path, i + 1)`, app.py:135) to the store, in order. -/
def applyCheckpoints (fs : FileState) (file_path : String) (writes : List Nat) :
    FileState :=
  writes.foldl (fun s w => save_progress s file_path (w : Int)) fs

/-- `WordDisplayThread.run` with a `KeyboardInterrupt` delivered at the head
of an iteration (app.py:118-138): after `j` complete iterations of the loop
(each having checkpointed `save_progress(file_path, i + 1)`), the interrupt
arrives before the next assignment `self.current_index = i` (app.py:129).
The `except KeyboardInterrupt` handler (app.py:136-138) then performs one
final `save_progress(file_path, self.current_index)`, where
`self.current_index` still holds its previous value: `0` from `__init__`
(app.py:116) when no iteration has yet executed the assignment, otherwise
`start + j - 1`, the loop variable of the last completed iteration.  Returns
the full sequence of values written to the progress store, in order.
Meaningful for `start + j ≤ len words` (the interrupted loop head is
reached). -/
def runInterrupted (words : List String) (start j : Nat) : List Nat :=
  ((List.range' start j).map (fun i => i + 1)) ++
    [if j = 0 then 0 else start + j - 1]

/-- Helper for `tokenize`: scan the character list, accumulating the current
word (in reverse) in `acc`; a whitespace character ends the current word, and
empty fragments (runs of whitespace, leading/trailing whitespace) produce no
token. -/
def splitWsAux : List Char → List Char → List String
  | [], acc => if acc.isEmpty then [] else [String.mk acc.reverse]
  | c :: cs, acc =>
    if c.isWhitespace then
      if acc.isEmpty then splitWsAux cs []
      else String.mk acc.reverse :: splitWsAux cs []
    else splitWsAux cs (c :: acc)

/-- Python `text.split()` (app.py:119): split on runs of whitespace,
discarding empty fragments, so leading/trailing/repeated whitespace produces
no tokens. -/
def tokenize (text : String) : List String :=
  splitWsAux text.toList []

/-- The guard of `MainWindow.start_display` (app.py:376-385): the method
returns without constructing a `WordDisplayThread` iff `not self.text`, i.e.
iff the raw extracted text is the empty string; otherwise it constructs and
starts a worker thread. -/
def start_display_starts_thread (text : String) : Bool :=
  !text.isEmpty

/-- `ContextWindow.update_context` (app.py:163-174): `start = max(0, c - 60)`
(which on `Nat` is truncated subtraction `c - 60`), `end = min(len(words),
c + 61)`, and one entry per index in `range(start, end)`, the entry at the
center index `c` flagged as current (the source wraps it in a red-bold HTML
span; the flag models that markup). -/
def update_context (words : List String) (current_index : Nat) :
    List (String × Bool) :=
  let start := current_index - 60
  let stop := min words.length (current_index + 61)
  (List.range' start (stop - start)).map
    (fun i => (words.getD i "", decide (i = current_index)))

/-! ## Byte-level model of the progress-file rewrite

`save_all_progress` (app.py:33-38) opens `PROGRESS_JSON` with mode `"w"` and
then `json.dump`s the table into it.  Opening an existing file in mode `"w"`
truncates it to length zero immediately; the serialized text is then written.
We model the file content as a string and the rewrite as the two primitive
file operations truncate-then-write.  (`json.dump` may issue several smaller
writes; splitting the write further only adds more intermediate states, so
one write operation is the most favourable reading for an atomicity claim.) -/

/-- A primitive file operation: truncation (open with mode `"w"`) or an
append of serialized text. -/
inductive FsOp where
  | truncate
  | write (s : String)

/-- Effect of one primitive file operation on the file content. -/
def applyOp (content : String) : FsOp → String
  | .truncate => ""
  | .write s => content ++ s

/-- File content after a prefix of the operations has executed. -/
def applyOps (content : String) (ops : List FsOp) : String :=
  ops.foldl applyOp content

/-- Serialization of one table entry, as `json.dump` renders it:
`"key": value` (keys here need no JSON escaping). -/
def serializeEntry (p : String × Int) : String :=
  "\"" ++ p.1 ++ "\": " ++ toString p.2

/-- Serialization of the whole table as `json.dump(data, f,
ensure_ascii=False, indent=2)` renders it: `\x7b\x7d` for the empty dict,
otherwise one indented entry per line. -/
def serializeTable : Table → String
  | [] => "\x7b\x7d"
  | ps =>
    "\x7b\n" ++ String.intercalate ",\n"
      (ps.map (fun p => "  " ++ serializeEntry p)) ++ "\n\x7d"

/-- The exact sequence of primitive file operations performed by
`save_all_progress` (app.py:33-38): truncate the target in place, then write
the new serialization.  No temporary file is involved. -/
def save_all_progress_ops (data : Table) : List FsOp :=
  [.truncate, .write (serializeTable data)]

/-- Modelled from the spec: "rewrites the full table atomically (readers must
never observe a partially written table — write-to-temp-then-replace
semantics are required)".  A rewrite taking the file content from `old` to
`new` via the operations `ops` is atomic iff after every prefix of the
operations the observable content is the complete old text or the complete
new text. -/
def atomicReplaceSpec (old new : String) (ops : List FsOp) : Prop :=
  ∀ k, k ≤ ops.length →
    applyOps old (ops.take k) = old ∨ applyOps old (ops.take k) = new

/-- Modelled from the spec: "Emit a progress notification carrying
`round((i+1)/len(tokens)*100)` as an integer percentage", i.e. `k/total*100`
rounded to the nearest integer (`k = i + 1`), here in exact arithmetic with
halves rounded up.  (Python's `round` breaks exact ties to even; the
comparison below is made at a non-tie input, where every
round-to-nearest convention agrees.) -/
def progressRoundSpec (k total : Nat) : Nat :=
  (k * 100 * 2 + total) / (2 * total)

/-! ## Helper lemmas -/

theorem findVal_dictSet_self (t : Table) (k : String) (v : Int) :
    findVal (dictSet t k v) k = some v := by
  induction t with
  | nil => simp [dictSet, findVal]
  | cons p rest ih =>
    by_cases h : p.1 = k
    · simp [dictSet, h, findVal]
    · simp [dictSet, h, findVal, ih]

theorem findVal_dictSet_ne (t : Table) (k k' : String) (v : Int) (h : k ≠ k') :
    findVal (dictSet t k v) k' = findVal t k' := by
  induction t with
  | nil => simp [dictSet, findVal, h]
  | cons p rest ih =>
    by_cases hp : p.1 = k
    · simp [dictSet, hp, findVal, h, ih]
    · simp [dictSet, hp, findVal, ih]

theorem load_save_self (fs : FileState) (d : String) (i : Int) :
    load_progress (save_progress fs d i) d = i := by
  simp [load_progress, save_progress, save_all_progress, load_all_progress,
    findVal_dictSet_self]

theorem load_save_ne (fs : FileState) (d d' : String) (i : Int) (h : d ≠ d') :
    load_progress (save_progress fs d i) d' = load_progress fs d' := by
  simp [load_progress, save_progress, save_all_progress, load_all_progress,
    findVal_dictSet_ne _ _ _ _ h]

theorem stepLoop_true (words : List String) (l : List Nat) :
    stepLoop words (fun _ => true) l =
      (l.map (fun i => (words.getD i "", progressPct (i + 1) words.length)),
       l.map (fun i => i + 1)) := by
  induction l with
  | nil => rfl
  | cons i rest ih => simp [stepLoop, ih]

theorem stepLoop_append_of_true (words : List String) (running : Nat → Bool)
    (l1 l2 : List Nat) (h : ∀ i ∈ l1, running i = true) :
    stepLoop words running (l1 ++ l2) =
      ((l1.map fun i => (words.getD i "", progressPct (i + 1) words.length)) ++
        (stepLoop words running l2).1,
       (l1.map fun i => i + 1) ++ (stepLoop words running l2).2) := by
  induction l1 with
  | nil => simp
  | cons i rest ih =>
    have hi : running i = true := h i (by simp)
    have hrest : ∀ j ∈ rest, running j = true := fun j hj => h j (by simp [hj])
    simp [stepLoop, hi, ih hrest]

theorem stepLoop_head_false (words : List String) (running : Nat → Bool)
    (i : Nat) (rest : List Nat) (h : running i = false) :
    stepLoop words running (i :: rest) = ([], []) := by
  simp [stepLoop, h]

theorem map_getD_range' (T : List String) (s n : Nat) (h : s + n ≤ T.length) :
    (List.range' s n).map (fun i => T.getD i "") = (T.drop s).take n := by
  apply List.ext_getElem
  · simp; omega
  · intro j h1 h2
    have hj : j < n := by simpa using h1
    have hsj : s + j < T.length := by omega
    rw [List.getElem_map, List.getElem_range', List.getElem_take,
      List.getElem_drop]
    rw [show s + 1 * j = s + j by ring, List.getD_eq_getElem T "" hsj]

theorem map_getD_range'_drop (T : List String) (s : Nat) :
    (List.range' s (T.length - s)).map (fun i => T.getD i "") = T.drop s := by
  rcases le_or_lt s T.length with h | h
  · rw [map_getD_range' T s (T.length - s) (by omega)]
    exact List.take_of_length_le (by simp)
  · have h0 : T.length - s = 0 := by omega
    rw [h0]
    simp [List.drop_eq_nil_of_le (Nat.le_of_lt h)]

theorem applyCheckpoints_append (fs : FileState) (d : String)
    (ws1 ws2 : List Nat) :
    applyCheckpoints fs d (ws1 ++ ws2) =
      applyCheckpoints (applyCheckpoints fs d ws1) d ws2 := by
  simp [applyCheckpoints]

theorem load_applyCheckpoints_concat (fs : FileState) (d : String)
    (ws : List Nat) (w : Nat) :
    load_progress (applyCheckpoints fs d (ws ++ [w])) d = (w : Int) := by
  rw [applyCheckpoints_append]
  exact load_save_self _ _ _

theorem chain_stepLoop_writes (words : List String) (running : Nat → Bool)
    (m : Nat) : ∀ s : Nat,
    List.Chain (· ≤ ·) s (stepLoop words running (List.range' s m)).2 := by
  induction m with
  | zero => intro s; exact List.Chain.nil
  | succ m ih =>
    intro s
    rw [List.range'_succ]
    by_cases h : running s
    · simp only [stepLoop, h, if_true]
      exact List.Chain.cons (Nat.le_succ s) (ih (s + 1))
    · rw [stepLoop_head_false _ _ _ _ (by simpa using h)]
      exact List.Chain.nil

theorem emitted_run_true (T : List String) (k : Nat) :
    (run T (fun _ => true) k).1.map Prod.fst = T.drop k := by
  rw [run, loopIndices, stepLoop_true, List.map_map]
  exact map_getD_range'_drop T k

theorem run_lt_budget (T : List String) (n : Nat) (hnT : n ≤ T.length) :
    run T (fun i => decide (i < n)) 0 =
      ((List.range' 0 n).map (fun i => (T.getD i "", progressPct (i + 1) T.length)),
       (List.range' 0 n).map (fun i => i + 1)) := by
  rw [run, loopIndices, Nat.sub_zero]
  have hsplit : List.range' 0 T.length =
      List.range' 0 n ++ List.range' n (T.length - n) := by
    have := List.range'_append 0 n (T.length - n) 1
    simp only [one_mul, Nat.zero_add] at this
    rw [this, Nat.sub_add_cancel hnT]
  rw [hsplit, stepLoop_append_of_true _ _ _ _
    (by intro i hi; simp only [List.mem_range'_1] at hi
        simp only [decide_eq_true_eq]; omega)]
  have htail : stepLoop T (fun i => decide (i < n)) (List.range' n (T.length - n)) =
      ([], []) := by
    cases h : T.length - n with
    | zero => rfl
    | succ m =>
      rw [List.range'_succ, stepLoop_head_false]
      simp
  rw [htail]
  simp

/-- Coherence of the interrupted-run model with the step loop: up to the
interruption point, the interrupted session has performed exactly the same
checkpoint writes as an uninterrupted session; only the final, handler-issued
write differs. -/
theorem runInterrupted_checkpoint_prefix (words : List String) (start j : Nat)
    (h : start + j ≤ words.length) :
    (runInterrupted words start j).take j
      = (run words (fun _ => true) start).2.take j := by
  have hrun2 : (run words (fun _ => true) start).2
      = (List.range' start (words.length - start)).map (fun i => i + 1) := by
    rw [run, loopIndices, stepLoop_true]
  have hsplit : List.range' start (words.length - start)
      = List.range' start j ++ List.range' (start + j) (words.length - start - j) := by
    obtain ⟨m, hm⟩ : ∃ m, words.length - start = m + j :=
      ⟨words.length - start - j, by omega⟩
    have hmj : words.length - start - j = m := by omega
    rw [hmj, hm]
    have hap := List.range'_append start j m 1
    simp only [one_mul] at hap
    exact hap.symm
  rw [runInterrupted, hrun2, hsplit, List.map_append,
    List.take_left' (by simp), List.take_left' (by simp)]

theorem serializeTable_ne_empty (t : Table) : serializeTable t ≠ "" := by
  cases t with
  | nil => decide
  | cons p ps =>
    intro h
    have hl := congrArg String.length h
    rw [serializeTable] at hl
    simp only [String.length_append] at hl
    have h2 : ("\x7b\n").length = 2 := rfl
    have h0 : ("" : String).length = 0 := rfl
    omega
    simp

/-! ### Binary64 rounding lemmas -/

theorem abs_roundEven_sub_le (q : ℚ) : |(roundEven q : ℚ) - q| ≤ 1/2 := by
  have hself : q - (⌊q⌋ : ℚ) = Int.fract q := Int.self_sub_floor q
  have h0 := Int.fract_nonneg q
  have h1 := Int.fract_lt_one q
  rw [roundEven]
  split_ifs <;> rw [abs_le] <;> push_cast <;> constructor <;> linarith

theorem roundEven_nonneg (q : ℚ) (hq : 0 ≤ q) : 0 ≤ roundEven q := by
  have h : 0 ≤ ⌊q⌋ := Int.floor_nonneg.mpr hq
  rw [roundEven]
  split_ifs <;> omega

theorem fl_nonneg (q : ℚ) : 0 ≤ fl q := by
  rw [fl]
  split_ifs with h
  · have hs : (0:ℚ) < 2 ^ (Int.log 2 q - 52) := zpow_pos (by norm_num) _
    have hm : (0:ℚ) ≤ q / 2 ^ (Int.log 2 q - 52) := le_of_lt (div_pos h hs)
    exact mul_nonneg (by exact_mod_cast roundEven_nonneg _ hm) hs.le
  · exact le_refl 0

theorem abs_fl_sub_le (q : ℚ) (hq : 0 < q) : |fl q - q| ≤ q / 2 ^ 53 := by
  rw [fl, if_pos hq]
  have hs : (0:ℚ) < 2 ^ (Int.log 2 q - 52) := zpow_pos (by norm_num) _
  have hfactor : (roundEven (q / 2 ^ (Int.log 2 q - 52)) : ℚ)
        * 2 ^ (Int.log 2 q - 52) - q
      = ((roundEven (q / 2 ^ (Int.log 2 q - 52)) : ℚ)
        - q / 2 ^ (Int.log 2 q - 52)) * 2 ^ (Int.log 2 q - 52) := by
    field_simp
  rw [hfactor, abs_mul, abs_of_pos hs]
  have h1 := abs_roundEven_sub_le (q / 2 ^ (Int.log 2 q - 52))
  have h2 : (2:ℚ) ^ (Int.log 2 q - 52) ≤ q / 2 ^ (52 : ℕ) := by
    have hlog : (2:ℚ) ^ (Int.log 2 q) ≤ q := by
      have := Int.zpow_log_le_self (R := ℚ) (b := 2) (by norm_num) hq
      exact_mod_cast this
    rw [zpow_sub₀ (by norm_num : (2:ℚ) ≠ 0)]
    have h52 : (2:ℚ) ^ (52 : ℤ) = 2 ^ (52 : ℕ) := by
      exact_mod_cast zpow_natCast (2:ℚ) 52
    rw [h52]
    exact div_le_div_of_nonneg_right hlog (by positivity)
  calc |(roundEven (q / 2 ^ (Int.log 2 q - 52)) : ℚ)
          - q / 2 ^ (Int.log 2 q - 52)| * 2 ^ (Int.log 2 q - 52)
      ≤ (1/2) * (q / 2 ^ (52 : ℕ)) := by
        apply mul_le_mul h1 h2 hs.le (by norm_num)
    _ = q / 2 ^ 53 := by ring

/-- Evaluation rule for `fl` when the exponent and the (round-down)
significand are supplied explicitly. -/
theorem fl_eq_of_lt_half (q : ℚ) (e m : ℤ) (hq : 0 < q)
    (h1 : (2:ℚ) ^ e ≤ q) (h2 : q < (2:ℚ) ^ (e + 1))
    (hm : ⌊q / (2:ℚ) ^ (e - 52)⌋ = m)
    (hfr : Int.fract (q / (2:ℚ) ^ (e - 52)) < 1/2) :
    fl q = (m : ℚ) * (2:ℚ) ^ (e - 52) := by
  have hlog : Int.log 2 q = e := by
    have hle : e ≤ Int.log 2 q :=
      (Int.zpow_le_iff_le_log (by norm_num) hq).mp (by exact_mod_cast h1)
    have hlt : Int.log 2 q < e + 1 :=
      (Int.lt_zpow_iff_log_lt (by norm_num) hq).mp (by exact_mod_cast h2)
    omega
  rw [fl, if_pos hq, hlog, roundEven, if_pos hfr, hm]

theorem pct_1_3 : progressPct 1 3 = 33 := by
  have h1 : fl ((1:ℚ) / 3) = 6004799503160661 * (2:ℚ) ^ ((-2:ℤ) - 52) :=
    fl_eq_of_lt_half _ _ _ (by norm_num) (by norm_num) (by norm_num)
      (by norm_num [zpow_neg]) (by rw [Int.fract]; norm_num [zpow_neg])
  have h2 : fl (6004799503160661 * (2:ℚ) ^ ((-2:ℤ) - 52) * 100)
      = 4691249611844266 * (2:ℚ) ^ ((5:ℤ) - 52) :=
    fl_eq_of_lt_half _ _ _ (by positivity) (by norm_num [zpow_neg])
      (by norm_num [zpow_neg]) (by norm_num [zpow_neg])
      (by rw [Int.fract]; norm_num [zpow_neg])
  rw [progressPct]
  have hc : ((1:ℕ):ℚ) / ((3:ℕ):ℚ) = (1:ℚ) / 3 := by norm_num
  rw [hc, h1, h2]
  have hfloor : ⌊(4691249611844266 : ℚ) * (2:ℚ) ^ ((5:ℤ) - 52)⌋ = 33 := by
    norm_num [zpow_neg]
  rw [hfloor]
  rfl

theorem pct_2_3 : progressPct 2 3 = 66 := by
  have h1 : fl ((2:ℚ) / 3) = 6004799503160661 * (2:ℚ) ^ ((-1:ℤ) - 52) :=
    fl_eq_of_lt_half _ _ _ (by norm_num) (by norm_num) (by norm_num)
      (by norm_num [zpow_neg]) (by rw [Int.fract]; norm_num [zpow_neg])
  have h2 : fl (6004799503160661 * (2:ℚ) ^ ((-1:ℤ) - 52) * 100)
      = 4691249611844266 * (2:ℚ) ^ ((6:ℤ) - 52) :=
    fl_eq_of_lt_half _ _ _ (by positivity) (by norm_num [zpow_neg])
      (by norm_num [zpow_neg]) (by norm_num [zpow_neg])
      (by rw [Int.fract]; norm_num [zpow_neg])
  rw [progressPct]
  have hc : ((2:ℕ):ℚ) / ((3:ℕ):ℚ) = (2:ℚ) / 3 := by norm_num
  rw [hc, h1, h2]
  have hfloor : ⌊(4691249611844266 : ℚ) * (2:ℚ) ^ ((6:ℤ) - 52)⌋ = 66 := by
    norm_num [zpow_neg]
  rw [hfloor]
  rfl

theorem pct_3_3 : progressPct 3 3 = 100 := by
  have h1 : fl ((3:ℚ) / 3) = 4503599627370496 * (2:ℚ) ^ ((0:ℤ) - 52) :=
    fl_eq_of_lt_half _ _ _ (by norm_num) (by norm_num) (by norm_num)
      (by norm_num [zpow_neg]) (by rw [Int.fract]; norm_num [zpow_neg])
  have h2 : fl (4503599627370496 * (2:ℚ) ^ ((0:ℤ) - 52) * 100)
      = 7036874417766400 * (2:ℚ) ^ ((6:ℤ) - 52) :=
    fl_eq_of_lt_half _ _ _ (by positivity) (by norm_num [zpow_neg])
      (by norm_num [zpow_neg]) (by norm_num [zpow_neg])
      (by rw [Int.fract]; norm_num [zpow_neg])
  rw [progressPct]
  have hc : ((3:ℕ):ℚ) / ((3:ℕ):ℚ) = (3:ℚ) / 3 := by norm_num
  rw [hc, h1, h2]
  have hfloor : ⌊(7036874417766400 : ℚ) * (2:ℚ) ^ ((6:ℤ) - 52)⌋ = 100 := by
    norm_num [zpow_neg]
  rw [hfloor]
  rfl

/-- At 100 tokens, step 28 (`k = 29`): the double `29/100` is slightly below
`0.29`, the product with 100 lands below 29, and truncation emits 28 where
the exact percentage is exactly 29. -/
theorem pct_29_100 : progressPct 29 100 = 28 := by
  have h1 : fl ((29:ℚ) / 100) = 5224175567749775 * (2:ℚ) ^ ((-2:ℤ) - 52) :=
    fl_eq_of_lt_half _ _ _ (by norm_num) (by norm_num) (by norm_num)
      (by norm_num [zpow_neg]) (by rw [Int.fract]; norm_num [zpow_neg])
  have h2 : fl (5224175567749775 * (2:ℚ) ^ ((-2:ℤ) - 52) * 100)
      = 8162774324609023 * (2:ℚ) ^ ((4:ℤ) - 52) :=
    fl_eq_of_lt_half _ _ _ (by positivity) (by norm_num [zpow_neg])
      (by norm_num [zpow_neg]) (by norm_num [zpow_neg])
      (by rw [Int.fract]; norm_num [zpow_neg])
  rw [progressPct]
  have hc : ((29:ℕ):ℚ) / ((100:ℕ):ℚ) = (29:ℚ) / 100 := by norm_num
  rw [hc, h1, h2]
  have hfloor : ⌊(8162774324609023 : ℚ) * (2:ℚ) ^ ((4:ℤ) - 52)⌋ = 28 := by
    norm_num [zpow_neg]
  rw [hfloor]
  rfl

/-- The double computation of the percentage stays within one of the exact
floor: two roundings at relative error `2^-53` perturb the exact value
`k*100/total <= 100` by far less than `1/2`, so the truncated result can
differ from the exact floor by at most one in either direction. -/
theorem progressPct_near_floor (k total : Nat) (hk0 : 0 < k) (hk : k ≤ total) :
    k * 100 / total ≤ progressPct k total + 1 ∧
    progressPct k total ≤ k * 100 / total + 1 := by
  have htot0 : 0 < total := lt_of_lt_of_le hk0 hk
  have htot : (0:ℚ) < (total:ℚ) := by exact_mod_cast htot0
  set q : ℚ := (k:ℚ) / (total:ℚ) with hqdef
  have hq0 : 0 < q := div_pos (by exact_mod_cast hk0) htot
  have hq1 : q ≤ 1 := (div_le_one htot).mpr (by exact_mod_cast hk)
  have h53 : ((2:ℚ) ^ (53:ℕ)) = 9007199254740992 := by norm_num
  have hd0 := abs_fl_sub_le q hq0
  rw [abs_le, h53] at hd0
  set d := fl q with hddef
  have hdpos : 0 < d := by linarith
  have hdle : d ≤ q + q / 9007199254740992 := by linarith
  have hx0 := abs_fl_sub_le (d * 100) (by positivity)
  rw [abs_le, h53] at hx0
  set x := fl (d * 100) with hxdef
  have hclose1 : x - q * 100 ≤ 1/2 := by linarith
  have hclose2 : q * 100 - x ≤ 1/2 := by linarith
  have hxnn : 0 ≤ x := fl_nonneg _
  have hfl1 : ((⌊x⌋:ℚ)) ≤ x := Int.floor_le x
  have hfl2 : x < ⌊x⌋ + 1 := Int.lt_floor_add_one x
  have hp : progressPct k total = ⌊x⌋.toNat := rfl
  have hpq : ((⌊x⌋.toNat : ℕ) : ℚ) = ((⌊x⌋ : ℤ) : ℚ) := by
    exact_mod_cast Int.toNat_of_nonneg (Int.floor_nonneg.mpr hxnn)
  have hFdef : (k * 100 / total : ℕ) = ⌊((k * 100 : ℕ) : ℚ) / (total : ℚ)⌋₊ := by
    rw [Nat.floor_div_nat, Nat.floor_natCast]
  have hE : ((k * 100 : ℕ) : ℚ) / (total : ℚ) = q * 100 := by
    rw [hqdef]; push_cast; ring
  have hF1 : ((k * 100 / total : ℕ) : ℚ) ≤ q * 100 := by
    rw [hFdef, hE]
    exact Nat.floor_le (by positivity)
  have hF2 : q * 100 < ((k * 100 / total : ℕ) : ℚ) + 1 := by
    rw [hFdef, hE]
    exact Nat.lt_floor_add_one _
  rw [hp]
  constructor
  · have hq2 : ((k * 100 / total : ℕ) : ℚ) < ((⌊x⌋.toNat : ℕ) : ℚ) + 2 := by
      rw [hpq]; linarith
    have : (k * 100 / total : ℕ) < ⌊x⌋.toNat + 2 := by exact_mod_cast hq2
    omega
  · have hq2 : ((⌊x⌋.toNat : ℕ) : ℚ) < ((k * 100 / total : ℕ) : ℚ) + 2 := by
      rw [hpq]; linarith
    have : ⌊x⌋.toNat < (k * 100 / total : ℕ) + 2 := by exact_mod_cast hq2
    omega

/-! ## Claims -/

/-- C1: Resume correctness: if the Progress Store holds `k` for document `d`
with `0 <= k <= len(T)`, starting playback for `d` with the running flag never
cleared emits exactly the tokens `T[k], ..., T[len(T)-1]`, in order and no
others (so for `k = len(T)` nothing is emitted). -/
theorem resume_correctness (fs : FileState) (d : String) (T : List String)
    (k : Nat) (hload : load_progress fs d = (k : Int)) (hk : k ≤ T.length) :
    (runSession fs d T (fun _ => true)).1.map Prod.fst = T.drop k ∧
    ((runSession fs d T (fun _ => true)).1.map Prod.fst).length + k = T.length := by
  have htn : (load_progress fs d).toNat = k := by rw [hload]; exact Int.toNat_natCast k
  have hrun : (runSession fs d T (fun _ => true)).1.map Prod.fst = T.drop k := by
    rw [runSession, htn]; exact emitted_run_true T k
  exact ⟨hrun, by rw [hrun, List.length_drop]; omega⟩

/-- Witness for `resume_correctness`: store holds 1 for `"b"`, the session over
`["x","y","z"]` emits `["y","z"]`. -/
theorem resume_correctness_witness :
    load_progress (.table [("b", 1)]) "b" = ((1 : Nat) : Int) ∧
    1 ≤ (["x", "y", "z"] : List String).length ∧
    ((runSession (.table [("b", 1)]) "b" ["x", "y", "z"] (fun _ => true)).1.map Prod.fst
        = (["x", "y", "z"] : List String).drop 1 ∧
      ((runSession (.table [("b", 1)]) "b" ["x", "y", "z"] (fun _ => true)).1.map
          Prod.fst).length + 1 = (["x", "y", "z"] : List String).length) :=
  ⟨by decide, by decide,
    resume_correctness (.table [("b", 1)]) "b" ["x", "y", "z"] 1 (by decide) (by decide)⟩

/-- C3: Progress Store get: `get(id)` returns the stored index when the
table exists, parses, and contains `id`; it returns 0 when the entry is
absent, the file is missing, or the file is malformed (the read error is
caught inside `load_all_progress` and never surfaces). -/
theorem get_progress_spec (d : String) (t : Table) (v : Int) :
    load_progress .missing d = 0 ∧
    load_progress .malformed d = 0 ∧
    (findVal t d = some v → load_progress (.table t) d = v) ∧
    (findVal t d = none → load_progress (.table t) d = 0) := by
  refine ⟨rfl, rfl, ?_, ?_⟩ <;> intro h <;>
    simp [load_progress, load_all_progress, h]

/-- Witness for `get_progress_spec`: a present entry is returned, an absent
one yields 0. -/
theorem get_progress_spec_witness :
    findVal [("a", 5)] "a" = some 5 ∧
    load_progress (.table [("a", 5)]) "a" = 5 ∧
    findVal [("b", 5)] "a" = none ∧
    load_progress (.table [("b", 5)]) "a" = 0 :=
  ⟨by decide, (get_progress_spec "a" [("a", 5)] 5).2.2.1 (by decide),
   by decide, (get_progress_spec "a" [("b", 5)] 5).2.2.2 (by decide)⟩

/-- C5: frame property of set: for a well-formed stored table and distinct
documents `d ≠ d'`, after `set(d, i)` the value `get(d')` is unchanged and
`get(d)` returns `i`. -/
theorem set_frame (t : Table) (d d' : String) (i : Int)
    (hwf : (t.map Prod.fst).Nodup) (hne : d ≠ d') :
    load_progress (save_progress (.table t) d i) d' = load_progress (.table t) d' ∧
    load_progress (save_progress (.table t) d i) d = i :=
  ⟨load_save_ne _ _ _ _ hne, load_save_self _ _ _⟩

/-- Witness for `set_frame` on the table `{"a": 1, "b": 2}` with
`set("a", 7)`. -/
theorem set_frame_witness :
    (([("a", 1), ("b", 2)] : Table).map Prod.fst).Nodup ∧ "a" ≠ "b" ∧
    (load_progress (save_progress (.table [("a", 1), ("b", 2)]) "a" 7) "b"
        = load_progress (.table [("a", 1), ("b", 2)]) "b" ∧
      load_progress (save_progress (.table [("a", 1), ("b", 2)]) "a" 7) "a" = 7) :=
  ⟨by decide, by decide,
    set_frame [("a", 1), ("b", 2)] "a" "b" 7 (by decide) (by decide)⟩

/-- C10: settings defaults: a missing or malformed settings file, or a table
lacking the key, yields rate 300 and font size 16; otherwise the stored
values are returned. -/
theorem settings_defaults (t : Table) (w f : Int) :
    load_settings_from_file .missing = (300, 16) ∧
    load_settings_from_file .malformed = (300, 16) ∧
    (findVal t "words_per_minute" = none →
      (load_settings_from_file (.table t)).1 = 300) ∧
    (findVal t "words_per_minute" = some w →
      (load_settings_from_file (.table t)).1 = w) ∧
    (findVal t "font_size" = none →
      (load_settings_from_file (.table t)).2 = 16) ∧
    (findVal t "font_size" = some f →
      (load_settings_from_file (.table t)).2 = f) := by
  refine ⟨rfl, rfl, ?_, ?_, ?_, ?_⟩ <;> intro h <;>
    simp [load_settings_from_file, load_app_settings, h]

/-- Witness for `settings_defaults` on the table
`{"words_per_minute": 450, "font_size": 20}` and on a table without the
keys. -/
theorem settings_defaults_witness :
    findVal [("words_per_minute", 450), ("font_size", 20)] "words_per_minute"
        = some 450 ∧
    (load_settings_from_file
        (.table [("words_per_minute", 450), ("font_size", 20)])).1 = 450 ∧
    findVal [("words_per_minute", 450), ("font_size", 20)] "font_size"
        = some 20 ∧
    (load_settings_from_file
        (.table [("words_per_minute", 450), ("font_size", 20)])).2 = 20 ∧
    findVal [("other", 1)] "words_per_minute" = none ∧
    (load_settings_from_file (.table [("other", 1)])).1 = 300 :=
  ⟨by decide,
   (settings_defaults [("words_per_minute", 450), ("font_size", 20)] 450 20).2.2.2.1
     (by decide),
   by decide,
   (settings_defaults [("words_per_minute", 450), ("font_size", 20)] 450 20).2.2.2.2.2
     (by decide),
   by decide,
   (settings_defaults [("other", 1)] 450 20).2.2.1 (by decide)⟩

/-- C2 counterexample: for the three-token sequence the step with `i = 1`
emits `int(2/3*100) = 66` on the progress signal, while rounding to the
nearest integer gives `round(200/3) = 67`; the emitted percentages are
`[33, 66, 100]`, not the rounded `[33, 67, 100]`. -/
theorem progress_rounding_counterexample :
    (run ["a", "b", "c"] (fun _ => true) 0).1.map Prod.snd = [33, 66, 100] ∧
    progressRoundSpec 2 3 = 67 ∧
    ((run ["a", "b", "c"] (fun _ => true) 0).1.map Prod.snd).getD 1 0
      ≠ progressRoundSpec 2 3 := by
  have hevents : (run ["a", "b", "c"] (fun _ => true) 0).1.map Prod.snd
      = [progressPct 1 3, progressPct 2 3, progressPct 3 3] := by
    rw [run, loopIndices, stepLoop_true]
    rfl
  rw [hevents, pct_1_3, pct_2_3, pct_3_3]
  exact ⟨rfl, by decide, by decide⟩

/-- C2 amended: the progress notification at step `i` of a full session over
a non-empty `T` carries `int((i+1)/len(T)*100)` computed in IEEE-754
binary64 arithmetic and truncated toward zero - not rounded to the nearest
integer: the emitted value is within one of the exact floor
`(i+1)*100/len(T)` in either direction, and it can fall one below the exact
floor at exact-percentage points: with 100 tokens, step 28 emits 28 although
the exact percentage is exactly 29. -/
theorem progress_truncation (T : List String) (i : Nat)
    (h0 : 0 < T.length) (hi : i < T.length) :
    (((run T (fun _ => true) 0).1.getD i ("", 0)).2
        = progressPct (i + 1) T.length ∧
      (i + 1) * 100 / T.length ≤ progressPct (i + 1) T.length + 1 ∧
      progressPct (i + 1) T.length ≤ (i + 1) * 100 / T.length + 1) ∧
    (progressPct 29 100 = 28 ∧ 29 * 100 / 100 = 29) := by
  obtain ⟨hb1, hb2⟩ := progressPct_near_floor (i + 1) T.length (by omega) (by omega)
  refine ⟨⟨?_, hb1, hb2⟩, pct_29_100, by norm_num⟩
  rw [run, loopIndices, Nat.sub_zero, stepLoop_true]
  have hlen : i < ((List.range' 0 T.length).map
      (fun i => (T.getD i "", progressPct (i + 1) T.length))).length := by
    simpa using hi
  rw [List.getD_eq_getElem _ _ hlen, List.getElem_map, List.getElem_range']
  simp

/-- Witness for `progress_truncation` at `T = ["a","b","c"]`, `i = 1`. -/
theorem progress_truncation_witness :
    0 < (["a", "b", "c"] : List String).length ∧
    1 < (["a", "b", "c"] : List String).length ∧
    ((((run ["a", "b", "c"] (fun _ => true) 0).1.getD 1 ("", 0)).2
        = progressPct (1 + 1) (["a", "b", "c"] : List String).length ∧
      (1 + 1) * 100 / (["a", "b", "c"] : List String).length
        ≤ progressPct (1 + 1) (["a", "b", "c"] : List String).length + 1 ∧
      progressPct (1 + 1) (["a", "b", "c"] : List String).length
        ≤ (1 + 1) * 100 / (["a", "b", "c"] : List String).length + 1) ∧
    (progressPct 29 100 = 28 ∧ 29 * 100 / 100 = 29)) :=
  ⟨by decide, by decide,
    progress_truncation ["a", "b", "c"] 1 (by decide) (by decide)⟩

/-- C9 counterexample: with the store holding 0 for the document, a
`KeyboardInterrupt` delivered at the head of the second iteration makes the
session write `1` (the checkpoint of iteration 0) and then `0` (the handler
saving the stale `current_index`): the write sequence `[1, 0]` is not
monotonically non-decreasing from the stored value `0` - a rollback. -/
theorem interrupt_rollback_counterexample :
    runInterrupted ["a", "b"] 0 1 = [1, 0] ∧
    ¬ List.Chain (· ≤ ·) 0 (runInterrupted ["a", "b"] 0 1) := by
  refine ⟨rfl, ?_⟩
  intro h
  rw [show runInterrupted ["a", "b"] 0 1 = [1, 0] from rfl] at h
  cases h with
  | cons h1 h2 =>
    cases h2 with
    | cons h3 h4 => exact absurd h3 (by decide)

/-- C9 amended: absent abnormal interruption the invariant holds: for any
behaviour of the running flag the checkpoint writes form a non-decreasing
chain starting at or above the stored resume index `k`, and a session that
runs to completion (flag never cleared) leaves `get(d) = len(T)`. -/
theorem monotonic_checkpoints (fs : FileState) (d : String) (T : List String)
    (k : Nat) (hload : load_progress fs d = (k : Int)) (hk : k ≤ T.length) :
    (∀ running, List.Chain (· ≤ ·) k (runSession fs d T running).2) ∧
    load_progress
      (applyCheckpoints fs d (runSession fs d T (fun _ => true)).2) d
      = (T.length : Int) := by
  have htn : (load_progress fs d).toNat = k := by
    rw [hload]; exact Int.toNat_natCast k
  constructor
  · intro running
    rw [runSession, htn, run, loopIndices]
    exact chain_stepLoop_writes T running _ k
  · rw [runSession, htn, run, loopIndices, stepLoop_true]
    cases hm : T.length - k with
    | zero =>
      have hkl : k = T.length := by omega
      simp only [hm, List.range'_zero, List.map_nil]
      rw [show applyCheckpoints fs d [] = fs from rfl, hload, hkl]
    | succ m =>
      rw [List.range'_concat]
      have hconc : (List.range' k m ++ [k + 1 * m]).map (fun i => i + 1)
          = (List.range' k m).map (fun i => i + 1) ++ [k + 1 * m + 1] := by
        simp
      rw [hconc, load_applyCheckpoints_concat]
      have : k + 1 * m + 1 = T.length := by omega
      rw [this]

/-- Witness for `monotonic_checkpoints`: empty store, one-token document. -/
theorem monotonic_checkpoints_witness :
    load_progress (.table []) "d" = ((0 : Nat) : Int) ∧
    0 ≤ (["a"] : List String).length ∧
    ((∀ running,
        List.Chain (· ≤ ·) 0 (runSession (.table []) "d" ["a"] running).2) ∧
      load_progress
        (applyCheckpoints (.table []) "d"
          (runSession (.table []) "d" ["a"] (fun _ => true)).2) "d"
        = ((["a"] : List String).length : Int)) :=
  ⟨by decide, by decide,
    monotonic_checkpoints (.table []) "d" ["a"] 0 (by decide) (by decide)⟩

/-- C6: Context Viewer correctness: for `0 <= c < N` the window is exactly
the sub-sequence spanning `[max(0, c-60), min(N, c+61))` (on `Nat`,
`max(0, c-60)` is `c - 60`), the flag is set exactly at the entry whose index
is `c`, the window length is at most 121, for `c = 0` the window starts at 0,
and for `c = N-1` it ends at `N`. -/
theorem context_window_spec (T : List String) (c : Nat) (hc : c < T.length) :
    (update_context T c).map Prod.fst =
      (T.drop (c - 60)).take (min T.length (c + 61) - (c - 60)) ∧
    (update_context T c).length = min T.length (c + 61) - (c - 60) ∧
    (∀ j, j < (update_context T c).length →
      (((update_context T c).getD j ("", false)).2 = true ↔ c - 60 + j = c)) ∧
    (update_context T c).length ≤ 121 ∧
    (c = 0 → c - 60 = 0) ∧
    (c = T.length - 1 → min T.length (c + 61) = T.length) := by
  have hspan : (c - 60) + (min T.length (c + 61) - (c - 60)) ≤ T.length := by
    omega
  have hlen : (update_context T c).length
      = min T.length (c + 61) - (c - 60) := by
    simp [update_context]
  refine ⟨?_, hlen, ?_, by omega, by omega, by omega⟩
  · rw [update_context, List.map_map]
    exact map_getD_range' T _ _ hspan
  · intro j hj
    rw [hlen] at hj
    have hj' : j < ((List.range' (c - 60) (min T.length (c + 61) - (c - 60))).map
        (fun i => (T.getD i "", decide (i = c)))).length := by
      simpa using hj
    rw [update_context]
    rw [List.getD_eq_getElem _ _ hj', List.getElem_map, List.getElem_range']
    simp only [one_mul, decide_eq_true_eq]

/-- Witness for `context_window_spec` at `T = ["x","y","z"]`, `c = 1`. -/
theorem context_window_spec_witness :
    1 < (["x", "y", "z"] : List String).length ∧
    ((update_context ["x", "y", "z"] 1).map Prod.fst =
      ((["x", "y", "z"] : List String).drop (1 - 60)).take
        (min (["x", "y", "z"] : List String).length (1 + 61) - (1 - 60)) ∧
    (update_context ["x", "y", "z"] 1).length
      = min (["x", "y", "z"] : List String).length (1 + 61) - (1 - 60) ∧
    (∀ j, j < (update_context ["x", "y", "z"] 1).length →
      (((update_context ["x", "y", "z"] 1).getD j ("", false)).2 = true ↔
        1 - 60 + j = 1)) ∧
    (update_context ["x", "y", "z"] 1).length ≤ 121 ∧
    (1 = 0 → 1 - 60 = 0) ∧
    (1 = (["x", "y", "z"] : List String).length - 1 →
      min (["x", "y", "z"] : List String).length (1 + 61)
        = (["x", "y", "z"] : List String).length)) :=
  ⟨by decide, context_window_spec ["x", "y", "z"] 1 (by decide)⟩

/-- C7: stop-then-resume idempotence: from stored progress 0, a session that
completes exactly `n` full iterations (the running flag observed true for
loop indices below `n`, false from `n` on) emits `T[0..n-1]`, leaves stored
progress `n`, and a fresh uninterrupted session then emits exactly
`T[n..len(T)-1]`; together the two sessions cover `T` with no duplicate and
no skipped token. -/
theorem stop_then_resume (fs : FileState) (d : String) (T : List String)
    (n : Nat) (hload : load_progress fs d = 0) (hn : 0 < n)
    (hnT : n ≤ T.length) :
    (runSession fs d T (fun i => decide (i < n))).1.map Prod.fst = T.take n ∧
    load_progress
      (applyCheckpoints fs d (runSession fs d T (fun i => decide (i < n))).2) d
      = (n : Int) ∧
    (runSession
      (applyCheckpoints fs d (runSession fs d T (fun i => decide (i < n))).2)
      d T (fun _ => true)).1.map Prod.fst = T.drop n ∧
    T.take n ++ T.drop n = T := by
  have htn : (load_progress fs d).toNat = 0 := by rw [hload]; rfl
  have hfirst : runSession fs d T (fun i => decide (i < n))
      = ((List.range' 0 n).map
          (fun i => (T.getD i "", progressPct (i + 1) T.length)),
         (List.range' 0 n).map (fun i => i + 1)) := by
    rw [runSession, htn]; exact run_lt_budget T n hnT
  obtain ⟨m, hm⟩ : ∃ m, n = m + 1 := ⟨n - 1, by omega⟩
  have hwrites : (runSession fs d T (fun i => decide (i < n))).2
      = (List.range' 0 m).map (fun i => i + 1) ++ [n] := by
    rw [hfirst, hm, List.range'_concat]
    simp
  have hstored : load_progress
      (applyCheckpoints fs d (runSession fs d T (fun i => decide (i < n))).2) d
      = (n : Int) := by
    rw [hwrites, load_applyCheckpoints_concat]
  refine ⟨?_, hstored, ?_, List.take_append_drop n T⟩
  · rw [hfirst]
    simp only [List.map_map]
    have := map_getD_range' T 0 n (by omega)
    rw [List.drop_zero] at this
    exact this
  · rw [runSession, hstored, Int.toNat_natCast]
    exact emitted_run_true T n

/-- Witness for `stop_then_resume`: `T = ["x","y","z"]`, stop after 2
iterations, resume emits `["z"]`. -/
theorem stop_then_resume_witness :
    load_progress (.table []) "d" = 0 ∧ 0 < 2 ∧
    2 ≤ (["x", "y", "z"] : List String).length ∧
    ((runSession (.table []) "d" ["x", "y", "z"]
        (fun i => decide (i < 2))).1.map Prod.fst
        = (["x", "y", "z"] : List String).take 2 ∧
      load_progress
        (applyCheckpoints (.table []) "d"
          (runSession (.table []) "d" ["x", "y", "z"]
            (fun i => decide (i < 2))).2) "d" = ((2 : Nat) : Int) ∧
      (runSession
        (applyCheckpoints (.table []) "d"
          (runSession (.table []) "d" ["x", "y", "z"]
            (fun i => decide (i < 2))).2)
        "d" ["x", "y", "z"] (fun _ => true)).1.map Prod.fst
        = (["x", "y", "z"] : List String).drop 2 ∧
      (["x", "y", "z"] : List String).take 2 ++
        (["x", "y", "z"] : List String).drop 2 = ["x", "y", "z"]) :=
  ⟨by decide, by decide, by decide,
    stop_then_resume (.table []) "d" ["x", "y", "z"] 2 (by decide) (by decide)
      (by decide)⟩

/-- C8 counterexample: the single-space text has a zero-length token
sequence, yet the `start_display` guard (`if not self.text`) does not reject
it: a worker thread is constructed and started. -/
theorem empty_tokens_counterexample :
    tokenize " " = [] ∧ start_display_starts_thread " " = true :=
  ⟨by decide, by decide⟩

/-- C8 amended: `start_display` is a no-op (no thread constructed) exactly
when the raw text is the empty string; when the text is non-empty but its
token sequence is empty (whitespace-only text), a worker thread is created,
but its loop performs zero iterations: no word or progress notification is
emitted and no checkpoint is written. -/
theorem empty_text_no_op (text : String) (running : Nat → Bool) (start : Nat)
    (hempty : tokenize text = []) :
    (start_display_starts_thread text = false ↔ text = "") ∧
    run (tokenize text) running start = ([], []) := by
  constructor
  · rw [start_display_starts_thread]
    rw [Bool.not_eq_false']
    exact String.isEmpty_iff text
  · rw [hempty, run, loopIndices]
    simp [stepLoop]

/-- Witness for `empty_text_no_op` at the whitespace-only text. -/
theorem empty_text_no_op_witness :
    tokenize " " = [] ∧
    ((start_display_starts_thread " " = false ↔ " " = "") ∧
      run (tokenize " ") (fun _ => true) 0 = ([], [])) :=
  ⟨by decide, empty_text_no_op " " (fun _ => true) 0 (by decide)⟩

/-- C4 counterexample: rewriting the table `{"doc": 3}` to `{"doc": 4}`
truncates the target file in place before writing; a reader at the
interruption point right after the truncation observes the empty file, which
is neither the old nor the new serialized table, so the rewrite is not
atomic in the write-to-temp-then-replace sense. -/
theorem save_not_atomic_counterexample :
    applyOps (serializeTable [("doc", 3)])
      ((save_all_progress_ops [("doc", 4)]).take 1) = "" ∧
    serializeTable [("doc", 3)] ≠ "" ∧
    serializeTable [("doc", 4)] ≠ "" ∧
    ¬ atomicReplaceSpec (serializeTable [("doc", 3)])
        (serializeTable [("doc", 4)]) (save_all_progress_ops [("doc", 4)]) := by
  refine ⟨rfl, by decide, by decide, ?_⟩
  intro h
  rcases h 1 (by decide) with h1 | h1 <;> revert h1 <;> decide

/-- C4 amended: `save_all_progress` rewrites the table by truncating the
target file and writing the new serialization in place (no temporary file):
the final content is exactly the new table, but the intermediate state after
truncation is the empty file, so whenever the old content is non-empty an
interruption can expose a state that is neither the old nor the new table. -/
theorem save_rewrites_in_place (old : String) (t : Table) (hold : old ≠ "") :
    applyOps old (save_all_progress_ops t) = serializeTable t ∧
    applyOps old ((save_all_progress_ops t).take 1) = "" ∧
    ¬ atomicReplaceSpec old (serializeTable t) (save_all_progress_ops t) := by
  refine ⟨?_, rfl, ?_⟩
  · show ("" : String) ++ serializeTable t = serializeTable t
    exact String.empty_append _
  · intro h
    have h1 := h 1 (by simp [save_all_progress_ops])
    have h2 : applyOps old ((save_all_progress_ops t).take 1) = "" := rfl
    rw [h2] at h1
    rcases h1 with h1 | h1
    · exact hold h1.symm
    · exact serializeTable_ne_empty t h1.symm

/-- Witness for `save_rewrites_in_place` with old content `"x"` and new
table `{"doc": 4}`. -/
theorem save_rewrites_in_place_witness :
    ("x" : String) ≠ "" ∧
    (applyOps "x" (save_all_progress_ops [("doc", 4)])
        = serializeTable [("doc", 4)] ∧
      applyOps "x" ((save_all_progress_ops [("doc", 4)]).take 1) = "" ∧
      ¬ atomicReplaceSpec "x" (serializeTable [("doc", 4)])
          (save_all_progress_ops [("doc", 4)])) :=
  ⟨by decide, save_rewrites_in_place "x" [("doc", 4)] (by decide)⟩

end RSVPreader
